import Mathlib

/-!
Shallow embedding of the labeled-table merge/join/concat engine described in the
repository's design specification.  The repository itself only calls a
third-party tabular-data library, so every definition below is modelled from
the specification's component design (Labeled Table, Alignment Engine,
Merge/Join Executor, Concatenator).
-/

/-- Modelled from the spec: a cell value.  Columns hold typed values (text or
numeric in the lecture material) together with a distinguished missing-value
marker, a sentinel distinguishable from any valid data value. -/
inductive Val where
  | vstr : String → Val
  | vint : Int → Val
  | missing : Val
deriving DecidableEq, Repr

/-- Modelled from the spec: a Labeled Table — an ordered sequence of named
columns, positionally aligned with an ordered sequence of row labels (the
index, possibly carrying a name, as when a key column has been moved onto the
index).  Data is stored row-wise; position i in `index` corresponds to
`rows[i]`, and entry j of a row belongs to column `columns[j]`. -/
structure Table where
  columns : List String
  indexName : Option String
  index : List Val
  rows : List (List Val)
deriving DecidableEq, Repr

/-- Number of rows of a table. -/
def Table.rowCount (t : Table) : Nat := t.rows.length

/-- Look a value up in a single row by column name; absent columns give the
missing-value marker. -/
def getAtName (cols : List String) (row : List Val) (c : String) : Val :=
  match cols.findIdx? (fun x => x = c) with
  | some j => row.getD j Val.missing
  | none => Val.missing

/-- Cell of table `t` at row position `i`, column named `c`. -/
def Table.cellByName (t : Table) (i : Nat) (c : String) : Val :=
  getAtName t.columns (t.rows.getD i []) c

/-- Modelled from the spec: a join-key specification for one side — either a
set of column names or "use the index". -/
inductive KeySpec where
  | onCols : List String → KeySpec
  | useIndex : KeySpec
deriving DecidableEq, Repr

/-- Modelled from the spec: the join policy (`how`). -/
inductive How where
  | left
  | right
  | inner
  | outer
deriving DecidableEq, Repr

/-- Modelled from the spec: the composite key tuple extracted from row `i` of
table `t`.  A name designating the (named) index is resolved against the index
labels, mirroring the lecture's merges on an index-resident key column. -/
def keyOfRow (t : Table) (ks : KeySpec) (i : Nat) : List Val :=
  match ks with
  | .onCols ns => ns.map (fun c =>
      if c ∈ t.columns then t.cellByName i c
      else if t.indexName = some c then t.index.getD i Val.missing
      else Val.missing)
  | .useIndex => [t.index.getD i Val.missing]

/-- Key tuples of every row of `t`, in row order. -/
def allKeys (t : Table) (ks : KeySpec) : List (List Val) :=
  (List.range t.rowCount).map (keyOfRow t ks)

/-- Row positions of `t` whose key tuple equals `k`, in ascending order. -/
def positionsOf (t : Table) (ks : KeySpec) (k : List Val) : List Nat :=
  (List.range t.rowCount).filter (fun i => keyOfRow t ks i = k)

/-- Worker for `uniqueKeys`: drops elements already seen. -/
def uniqueKeysAux {α : Type} [DecidableEq α] (seen : List α) : List α → List α
  | [] => []
  | k :: rest =>
    if k ∈ seen then uniqueKeysAux seen rest
    else k :: uniqueKeysAux (k :: seen) rest

/-- First occurrence of each element, in first-occurrence order. -/
def uniqueKeys {α : Type} [DecidableEq α] (l : List α) : List α :=
  uniqueKeysAux [] l

/-- Modelled from the spec: the ordered pairs emitted for one surviving key —
the full cross-product of the two sides' positions, left-position-major; a side
with no positions for the key contributes "none". -/
def pairsForKey (lp rp : List Nat) : List (Option Nat × Option Nat) :=
  if lp.isEmpty then rp.map (fun j => (none, some j))
  else if rp.isEmpty then lp.map (fun i => (some i, none))
  else lp.flatMap (fun i => rp.map (fun j => (some i, some j)))

/-- Modelled from the spec: the surviving key sequence for each join policy —
left keys in first-occurrence order, right keys likewise, their intersection,
or their union with R-only keys appended. -/
def survivingKeys (L R : Table) (ksl ksr : KeySpec) : How → List (List Val)
  | .left => uniqueKeys (allKeys L ksl)
  | .right => uniqueKeys (allKeys R ksr)
  | .inner => (uniqueKeys (allKeys L ksl)).filter (fun k => k ∈ allKeys R ksr)
  | .outer => uniqueKeys (allKeys L ksl)
      ++ (uniqueKeys (allKeys R ksr)).filter (fun k => ¬ k ∈ allKeys L ksl)

/-- Modelled from the spec: the Alignment Engine's join plan — for each
surviving key, in policy order, the cross-product of the key's left and right
positions. -/
def joinPlan (L R : Table) (ksl ksr : KeySpec) (how : How) :
    List (Option Nat × Option Nat) :=
  (survivingKeys L R ksl ksr how).flatMap
    (fun k => pairsForKey (positionsOf L ksl k) (positionsOf R ksr k))

/-- Output names of the key column(s): the left side's names when it joins on
columns, else the right side's, else the (named) shared index. -/
def keyOutNames (L : Table) (ksl ksr : KeySpec) : List String :=
  match ksl, ksr with
  | .onCols ns, _ => ns
  | .useIndex, .onCols ns => ns
  | .useIndex, .useIndex =>
    match L.indexName with
    | some n => [n]
    | none => ["key"]

/-- Non-key columns contributed by one side. -/
def sideNonKey (t : Table) (ks : KeySpec) : List String :=
  match ks with
  | .onCols ns => t.columns.filter (fun c => ¬ c ∈ ns)
  | .useIndex => t.columns

/-- Modelled from the spec: the configurable suffixing rule disambiguating
non-key column names that clash across the two sides. -/
def suffixClash (own other : List String) (suf : String) : List String :=
  own.map (fun c => if c ∈ other then c ++ suf else c)

/-- Column names of a merge output: key column(s), then L's non-key columns,
then R's non-key columns, clashes suffixed per side. -/
def mergeCols (L R : Table) (ksl ksr : KeySpec) : List String :=
  keyOutNames L ksl ksr
    ++ suffixClash (sideNonKey L ksl) (sideNonKey R ksr) "_x"
    ++ suffixClash (sideNonKey R ksr) (sideNonKey L ksl) "_y"

/-- Key values of one output row: taken from whichever side is present,
preferring left. -/
def entryKeyVals (L R : Table) (ksl ksr : KeySpec)
    (e : Option Nat × Option Nat) : List Val :=
  match e with
  | (some i, _) => keyOfRow L ksl i
  | (none, some j) => keyOfRow R ksr j
  | (none, none) => (keyOutNames L ksl ksr).map (fun _ => Val.missing)

/-- One side's non-key values for an output row; a side absent from the plan
entry is filled with the missing-value marker. -/
def sideVals (t : Table) (ks : KeySpec) (o : Option Nat) : List Val :=
  match o with
  | some i => (sideNonKey t ks).map (fun c => t.cellByName i c)
  | none => (sideNonKey t ks).map (fun _ => Val.missing)

/-- Modelled from the spec: the Merge/Join Executor's output row for one join
plan entry. -/
def mergeRow (L R : Table) (ksl ksr : KeySpec)
    (e : Option Nat × Option Nat) : List Val :=
  entryKeyVals L R ksl ksr e ++ sideVals L ksl e.1 ++ sideVals R ksr e.2

/-- Modelled from the spec: the merge operation — Alignment Engine followed by
the Merge/Join Executor.  The join policy defaults to `left`, as the lecture
states.  The output index is fresh positional labels (the default mode). -/
def merge (L R : Table) (ksl ksr : KeySpec) (how : How := How.left) : Table :=
  let plan := joinPlan L R ksl ksr how
  { columns := mergeCols L R ksl ksr
    indexName := none
    index := (List.range plan.length).map (fun i => Val.vint (Int.ofNat i))
    rows := plan.map (mergeRow L R ksl ksr) }

/-- Merge on the same named key column(s) on both sides. -/
def mergeOn (L R : Table) (ks : List String) (how : How := How.left) : Table :=
  merge L R (.onCols ks) (.onCols ks) how

/-- Modelled from the spec: error conditions of the engine's validation
layer. -/
inductive MergeError where
  | keyNotFound : String → MergeError
  | noCommonKey : MergeError
deriving DecidableEq, Repr

/-- First key name of a specification that resolves against neither the
side's columns nor its (named) index. -/
def badKey (t : Table) (ks : KeySpec) : Option String :=
  match ks with
  | .onCols ns => ns.find? (fun c => ¬ c ∈ t.columns ∧ ¬ t.indexName = some c)
  | .useIndex => none

/-- Modelled from the spec: merge with up-front key validation — an unknown
join-key column name fails with `KeyNotFound` before any alignment work. -/
def mergeChecked (L R : Table) (ksl ksr : KeySpec) (how : How := How.left) :
    Except MergeError Table :=
  match badKey L ksl with
  | some c => .error (.keyNotFound c)
  | none =>
    match badKey R ksr with
    | some c => .error (.keyNotFound c)
    | none => .ok (merge L R ksl ksr how)

/-- Modelled from the spec: the Concatenator's row-stack mode (axis 0) —
indices appended without deduplication, columns the ordered union, rows
reprojected with missing-value fill for absent columns. -/
def concatRows (L R : Table) : Table :=
  let cols := L.columns ++ R.columns.filter (fun c => ¬ c ∈ L.columns)
  { columns := cols
    indexName := if L.indexName = R.indexName then L.indexName else none
    index := L.index ++ R.index
    rows := L.rows.map (fun r => cols.map (getAtName L.columns r))
        ++ R.rows.map (fun r => cols.map (getAtName R.columns r)) }

/-- The row of `t` at the first occurrence of index label `lbl`, if any. -/
def rowOfLabel (t : Table) (lbl : Val) : Option (List Val) :=
  (t.index.findIdx? (fun x => x = lbl)).map (fun i => t.rows.getD i [])

/-- Value of column `c` of `t` at index label `lbl`; missing when the label is
absent from `t`. -/
def lookupByLabel (t : Table) (lbl : Val) (c : String) : Val :=
  match rowOfLabel t lbl with
  | some r => getAtName t.columns r c
  | none => Val.missing

/-- Modelled from the spec: the Concatenator's column-stack mode (axis 1) —
index the ordered union of the input indices (duplicates merged, L first),
columns appended, each cell looked up by label with missing-value fill. -/
def concatCols (L R : Table) : Table :=
  let idx := uniqueKeys (L.index ++ R.index)
  { columns := L.columns ++ R.columns
    indexName := if L.indexName = R.indexName then L.indexName else none
    index := idx
    rows := idx.map (fun lbl =>
        L.columns.map (fun c => lookupByLabel L lbl c)
        ++ R.columns.map (fun c => lookupByLabel R lbl c)) }

/-- Modelled from the spec: the join convenience method — it calls merge
internally, fixing `left_on` to the given key column and the right side to
"use index", with the method's default policy `left`. -/
def Table.join (left other : Table) (key : String) (how : How := How.left) :
    Table :=
  merge left other (.onCols [key]) .useIndex how

/-- Rows of `t` reprojected, by column name, into the column order `sigma`. -/
def rowTuples (t : Table) (sigma : List String) : List (List Val) :=
  t.rows.map (fun r => sigma.map (getAtName t.columns r))

/-- The left demonstration table of the lecture's visualization section:
key column Key = [A, B, A, C] plus data columns C1 and C2. -/
def dfL : Table :=
  { columns := ["Key", "C1", "C2"]
    indexName := none
    index := [Val.vstr "L1", Val.vstr "L2", Val.vstr "L3", Val.vstr "L4"]
    rows := [[Val.vstr "A", Val.vint 1, Val.vint 10],
             [Val.vstr "B", Val.vint 2, Val.vint 20],
             [Val.vstr "A", Val.vint 3, Val.vint 30],
             [Val.vstr "C", Val.vint 4, Val.vint 40]] }

/-- The right demonstration table: key column Key = [A, B, C, D] plus data
column C3. -/
def dfR : Table :=
  { columns := ["Key", "C3"]
    indexName := none
    index := [Val.vstr "R1", Val.vstr "R2", Val.vstr "R3", Val.vstr "R4"]
    rows := [[Val.vstr "A", Val.vint 100],
             [Val.vstr "B", Val.vint 200],
             [Val.vstr "C", Val.vint 300],
             [Val.vstr "D", Val.vint 400]] }


/-! ### Basic properties of first-occurrence deduplication -/

theorem mem_uniqueKeysAux {α : Type} [DecidableEq α] (seen l : List α) (x : α) :
    x ∈ uniqueKeysAux seen l ↔ x ∈ l ∧ ¬ x ∈ seen := by
  induction l generalizing seen with
  | nil => simp [uniqueKeysAux]
  | cons k rest ih =>
    by_cases hk : k ∈ seen
    · rw [uniqueKeysAux, if_pos hk, ih]
      constructor
      · rintro ⟨h1, h2⟩
        exact ⟨List.mem_cons_of_mem _ h1, h2⟩
      · rintro ⟨h1, h2⟩
        rcases List.mem_cons.mp h1 with h | h
        · subst h; exact absurd hk h2
        · exact ⟨h, h2⟩
    · rw [uniqueKeysAux, if_neg hk]
      constructor
      · intro hx
        rcases List.mem_cons.mp hx with h | h
        · subst h; exact ⟨List.mem_cons_self _ _, hk⟩
        · rcases (ih _).mp h with ⟨h1, h2⟩
          refine ⟨List.mem_cons_of_mem _ h1, fun hc => h2 (List.mem_cons_of_mem _ hc)⟩
      · rintro ⟨h1, h2⟩
        rcases List.mem_cons.mp h1 with h | h
        · subst h; exact List.mem_cons_self _ _
        · by_cases hxk : x = k
          · subst hxk; exact List.mem_cons_self _ _
          · refine List.mem_cons_of_mem _ ((ih _).mpr ⟨h, ?_⟩)
            intro hc
            rcases List.mem_cons.mp hc with h3 | h3
            · exact hxk h3
            · exact h2 h3

theorem nodup_uniqueKeysAux {α : Type} [DecidableEq α] (seen l : List α) :
    (uniqueKeysAux seen l).Nodup := by
  induction l generalizing seen with
  | nil => simp [uniqueKeysAux]
  | cons k rest ih =>
    by_cases hk : k ∈ seen
    · rw [uniqueKeysAux, if_pos hk]; exact ih seen
    · rw [uniqueKeysAux, if_neg hk]
      refine List.Nodup.cons ?_ (ih _)
      intro hc
      exact ((mem_uniqueKeysAux _ _ _).mp hc).2 (List.mem_cons_self _ _)

theorem mem_uniqueKeys {α : Type} [DecidableEq α] (l : List α) (x : α) :
    x ∈ uniqueKeys l ↔ x ∈ l := by
  rw [uniqueKeys, mem_uniqueKeysAux]
  simp

theorem nodup_uniqueKeys {α : Type} [DecidableEq α] (l : List α) :
    (uniqueKeys l).Nodup :=
  nodup_uniqueKeysAux [] l

theorem uniqueKeysAux_congr {α : Type} [DecidableEq α] {s1 s2 : List α}
    (h : ∀ x, x ∈ s1 ↔ x ∈ s2) (l : List α) :
    uniqueKeysAux s1 l = uniqueKeysAux s2 l := by
  induction l generalizing s1 s2 with
  | nil => rfl
  | cons k rest ih =>
    by_cases hk : k ∈ s1
    · rw [uniqueKeysAux, if_pos hk, uniqueKeysAux, if_pos ((h k).mp hk), ih h]
    · rw [uniqueKeysAux, if_neg hk, uniqueKeysAux, if_neg (fun hc => hk ((h k).mpr hc))]
      have h2 : ∀ x, x ∈ k :: s1 ↔ x ∈ k :: s2 := by
        intro x
        simp only [List.mem_cons]
        exact or_congr Iff.rfl (h x)
      rw [ih h2]

theorem uniqueKeysAux_append {α : Type} [DecidableEq α] (seen A B : List α) :
    uniqueKeysAux seen (A ++ B)
      = uniqueKeysAux seen A ++ uniqueKeysAux (A ++ seen) B := by
  induction A generalizing seen with
  | nil => simp [uniqueKeysAux]
  | cons k A ih =>
    by_cases hk : k ∈ seen
    · rw [List.cons_append, uniqueKeysAux, if_pos hk, uniqueKeysAux, if_pos hk,
        ih seen]
      congr 1
      have hcg : ∀ x, x ∈ A ++ seen ↔ x ∈ (k :: A) ++ seen := by
        intro x
        rw [List.cons_append, List.mem_cons]
        constructor
        · exact Or.inr
        · rintro (h | h)
          · subst h; exact List.mem_append.mpr (Or.inr hk)
          · exact h
      exact uniqueKeysAux_congr hcg B
    · rw [List.cons_append, uniqueKeysAux, if_neg hk, uniqueKeysAux, if_neg hk,
        ih (k :: seen), List.cons_append]
      rw [List.cons_append] at *
      congr 2
      have hcg : ∀ x, x ∈ A ++ k :: seen ↔ x ∈ k :: A ++ seen := by
        intro x
        simp only [List.mem_cons, List.mem_append]
        tauto
      exact uniqueKeysAux_congr hcg B

theorem uniqueKeysAux_seen_split {α : Type} [DecidableEq α] (s1 : List α) :
    ∀ (l s2 : List α), uniqueKeysAux (s1 ++ s2) l
      = (uniqueKeysAux s2 l).filter (fun x => ¬ x ∈ s1) := by
  intro l
  induction l with
  | nil => intro s2; simp [uniqueKeysAux]
  | cons k rest ih =>
    intro s2
    by_cases h2 : k ∈ s2
    · rw [uniqueKeysAux, if_pos (List.mem_append.mpr (Or.inr h2)),
        uniqueKeysAux, if_pos h2, ih s2]
    · by_cases h1 : k ∈ s1
      · rw [uniqueKeysAux, if_pos (List.mem_append.mpr (Or.inl h1)),
          uniqueKeysAux, if_neg h2, List.filter_cons_of_neg (by simpa using h1)]
        have hcg : ∀ x, x ∈ s1 ++ s2 ↔ x ∈ s1 ++ (k :: s2) := by
          intro x
          simp only [List.mem_append, List.mem_cons]
          constructor
          · rintro (h | h)
            · exact Or.inl h
            · exact Or.inr (Or.inr h)
          · rintro (h | h | h)
            · exact Or.inl h
            · subst h; exact Or.inl h1
            · exact Or.inr h
        rw [uniqueKeysAux_congr hcg rest, ih (k :: s2)]
      · rw [uniqueKeysAux, if_neg (by simp only [List.mem_append]; tauto),
          uniqueKeysAux, if_neg h2, List.filter_cons_of_pos (by simpa using h1)]
        congr 1
        have hcg : ∀ x, x ∈ k :: (s1 ++ s2) ↔ x ∈ s1 ++ (k :: s2) := by
          intro x
          simp only [List.mem_append, List.mem_cons]
          tauto
        rw [uniqueKeysAux_congr hcg rest, ih (k :: s2)]

theorem uniqueKeys_append {α : Type} [DecidableEq α] (A B : List α) :
    uniqueKeys (A ++ B)
      = uniqueKeys A ++ (uniqueKeys B).filter (fun x => ¬ x ∈ A) := by
  rw [uniqueKeys, uniqueKeysAux_append, uniqueKeys, uniqueKeys]
  congr 1
  rw [List.append_nil A]
  have h := uniqueKeysAux_seen_split A B ([] : List α)
  rw [List.append_nil A] at h
  exact h

/-! ### Claim C1: the worked example with dfL and dfR -/

/-- C1: with the left key column Key = [A,B,A,C] and the right Key = [A,B,C,D],
the inner join on Key has exactly 4 rows and no row whose Key is D, and the
outer join has exactly those 4 rows plus one additional row for key D whose
left-side columns C1 and C2 hold the missing-value marker — 5 rows total. -/
theorem C1_concrete_inner_outer :
    (mergeOn dfL dfR ["Key"] How.inner).rowCount = 4
    ∧ (∀ r ∈ (mergeOn dfL dfR ["Key"] How.inner).rows,
        getAtName (mergeOn dfL dfR ["Key"] How.inner).columns r "Key"
          ≠ Val.vstr "D")
    ∧ (mergeOn dfL dfR ["Key"] How.outer).rowCount = 5
    ∧ (mergeOn dfL dfR ["Key"] How.outer).rows
        = (mergeOn dfL dfR ["Key"] How.inner).rows
          ++ [[Val.vstr "D", Val.missing, Val.missing, Val.vint 400]] := by
  refine ⟨rfl, ?_, rfl, rfl⟩
  decide

/-! ### Claim C7: the default join policy is left -/

/-- C7: calling merge without a join-policy argument is the same call with the
policy explicitly set to left, both for the raw engine and for its validated
front end. -/
theorem C7_default_policy_is_left (L R : Table) (ksl ksr : KeySpec) :
    merge L R ksl ksr = merge L R ksl ksr How.left
    ∧ mergeChecked L R ksl ksr = mergeChecked L R ksl ksr How.left :=
  ⟨rfl, rfl⟩

/-! ### Claim C10: join refines merge -/

/-- C10: for every left table, right table and key column name, the join
method equals merge with the left key fixed to that column and the right side
keyed on its index, at the method's default policy and at every policy. -/
theorem C10_join_refines_merge (left other : Table) (k : String) :
    Table.join left other k
        = merge left other (KeySpec.onCols [k]) KeySpec.useIndex How.left
    ∧ (∀ how : How, Table.join left other k how
        = merge left other (KeySpec.onCols [k]) KeySpec.useIndex how) :=
  ⟨rfl, fun _ => rfl⟩

/-! ### Claim C8: unknown join-key column name -/

theorem badKey_isSome {t : Table} {ns : List String} {c : String}
    (hc : c ∈ ns) (hcol : ¬ c ∈ t.columns) (hidx : ¬ t.indexName = some c) :
    (badKey t (KeySpec.onCols ns)).isSome := by
  rw [badKey, List.find?_isSome]
  exact ⟨c, hc, by simp [hcol, hidx]⟩

theorem badKey_spec {t : Table} {ks : KeySpec} {cbad : String}
    (h : badKey t ks = some cbad) :
    ¬ cbad ∈ t.columns ∧ ¬ t.indexName = some cbad := by
  cases ks with
  | useIndex => simp [badKey] at h
  | onCols ns =>
    have hp := List.find?_some (show List.find? _ ns = some cbad from h)
    simp only [decide_eq_true_eq, Bool.and_eq_true] at hp
    exact ⟨by simpa using hp.1, by simpa using hp.2⟩

/-- C8: if the key specification for either designated side names a column
that exists neither among that side's columns nor as its index name, validated
merge fails with a KeyNotFound condition — reporting a column that is indeed
unknown on one of the sides — and produces no output table. -/
theorem C8_unknown_key_fails (L R : Table) (ksl ksr : KeySpec) (how : How)
    (ns : List String) (c : String) (hc : c ∈ ns)
    (hside : (ksl = KeySpec.onCols ns ∧ ¬ c ∈ L.columns
        ∧ ¬ L.indexName = some c)
      ∨ (ksr = KeySpec.onCols ns ∧ ¬ c ∈ R.columns
        ∧ ¬ R.indexName = some c)) :
    ∃ cbad, mergeChecked L R ksl ksr how
        = Except.error (MergeError.keyNotFound cbad)
      ∧ ((¬ cbad ∈ L.columns ∧ ¬ L.indexName = some cbad)
        ∨ (¬ cbad ∈ R.columns ∧ ¬ R.indexName = some cbad)) := by
  rcases hside with ⟨hspec, hcol, hidx⟩ | ⟨hspec, hcol, hidx⟩
  · subst hspec
    obtain ⟨cbad, hcb⟩ :=
      Option.isSome_iff_exists.mp (badKey_isSome hc hcol hidx)
    refine ⟨cbad, ?_, Or.inl (badKey_spec hcb)⟩
    simp only [mergeChecked, hcb]
  · subst hspec
    cases hbl : badKey L ksl with
    | some c0 =>
      refine ⟨c0, ?_, Or.inl (badKey_spec hbl)⟩
      simp only [mergeChecked, hbl]
    | none =>
      obtain ⟨cbad, hcb⟩ :=
        Option.isSome_iff_exists.mp (badKey_isSome hc hcol hidx)
      refine ⟨cbad, ?_, Or.inr (badKey_spec hcb)⟩
      simp only [mergeChecked, hbl, hcb]

/-- Witness for C8 at a concrete input exercising the right-side path: the
left key Key is valid for dfL, while the right key column C1 exists in
neither dfR's columns nor its index; validated merge fails with KeyNotFound. -/
theorem C8_unknown_key_fails_witness :
    ("C1" ∈ ["C1"])
    ∧ (((KeySpec.onCols ["Key"] : KeySpec) = KeySpec.onCols ["C1"]
          ∧ ¬ "C1" ∈ dfL.columns ∧ ¬ dfL.indexName = some "C1")
      ∨ ((KeySpec.onCols ["C1"] : KeySpec) = KeySpec.onCols ["C1"]
          ∧ ¬ "C1" ∈ dfR.columns ∧ ¬ dfR.indexName = some "C1"))
    ∧ ∃ cbad, mergeChecked dfL dfR (KeySpec.onCols ["Key"])
          (KeySpec.onCols ["C1"]) How.inner
        = Except.error (MergeError.keyNotFound cbad)
      ∧ ((¬ cbad ∈ dfL.columns ∧ ¬ dfL.indexName = some cbad)
        ∨ (¬ cbad ∈ dfR.columns ∧ ¬ dfR.indexName = some cbad)) :=
  ⟨by decide, Or.inr ⟨rfl, by decide, by decide⟩,
    C8_unknown_key_fails dfL dfR (KeySpec.onCols ["Key"])
      (KeySpec.onCols ["C1"]) How.inner ["C1"] "C1" (by decide)
      (Or.inr ⟨rfl, by decide, by decide⟩)⟩

/-! ### Name-based cell lookup lemmas -/

theorem getAtName_not_mem {cols : List String} {c : String}
    (h : ¬ c ∈ cols) (row : List Val) :
    getAtName cols row c = Val.missing := by
  have hnone : cols.findIdx? (fun x => x = c) = none := by
    rw [List.findIdx?_eq_none_iff]
    intro x hx
    simp only [decide_eq_false_iff_not]
    intro he
    exact h (he ▸ hx)
  simp only [getAtName, hnone]

theorem getAtName_cons_self (c : String) (cs : List String) (v : Val)
    (vs : List Val) :
    getAtName (c :: cs) (v :: vs) c = v := by
  simp [getAtName, List.findIdx?_cons]

theorem getAtName_cons_of_ne {c0 c : String} (h : ¬ c0 = c) (cs : List String)
    (v : Val) (vs : List Val) :
    getAtName (c0 :: cs) (v :: vs) c = getAtName cs vs c := by
  simp only [getAtName, List.findIdx?_cons, decide_eq_true_eq, if_neg h]
  rw [show (0 + 1 : Nat) = 0 + 1 from rfl, List.findIdx?_succ]
  cases hfi : cs.findIdx? (fun x => x = c) with
  | none => rfl
  | some j => simp [List.getD_cons_succ]

theorem map_getAtName_self {cols : List String} {row : List Val}
    (hnd : cols.Nodup) (hlen : row.length = cols.length) :
    cols.map (getAtName cols row) = row := by
  induction cols generalizing row with
  | nil =>
    cases row with
    | nil => rfl
    | cons v vs => simp at hlen
  | cons c cs ih =>
    cases row with
    | nil => simp at hlen
    | cons v vs =>
      simp only [List.map_cons, getAtName_cons_self]
      congr 1
      have hcne : ∀ x ∈ cs, ¬ c = x := by
        intro x hx he
        exact (List.nodup_cons.mp hnd).1 (he ▸ hx)
      calc cs.map (getAtName (c :: cs) (v :: vs))
          = cs.map (getAtName cs vs) := by
            refine List.map_congr_left (fun x hx => ?_)
            exact getAtName_cons_of_ne (hcne x hx) cs v vs
        _ = vs := ih (List.nodup_cons.mp hnd).2 (by simpa using hlen)

theorem getAtName_append_left {cs1 : List String} {r1 : List Val}
    {c : String} (h : c ∈ cs1) (hlen : r1.length = cs1.length)
    (cs2 : List String) (r2 : List Val) :
    getAtName (cs1 ++ cs2) (r1 ++ r2) c = getAtName cs1 r1 c := by
  induction cs1 generalizing r1 with
  | nil => simp at h
  | cons c0 cs ih =>
    cases r1 with
    | nil => simp at hlen
    | cons v vs =>
      by_cases he : c0 = c
      · subst he
        simp only [List.cons_append, getAtName_cons_self]
      · rw [List.cons_append, List.cons_append, getAtName_cons_of_ne he,
          getAtName_cons_of_ne he]
        have hmem : c ∈ cs := by
          rcases List.mem_cons.mp h with h1 | h1
          · exact absurd h1.symm he
          · exact h1
        exact ih hmem (by simpa using hlen)

theorem getAtName_append_right {cs1 : List String} {r1 : List Val}
    {c : String} (h : ¬ c ∈ cs1) (hlen : r1.length = cs1.length)
    (cs2 : List String) (r2 : List Val) :
    getAtName (cs1 ++ cs2) (r1 ++ r2) c = getAtName cs2 r2 c := by
  induction cs1 generalizing r1 with
  | nil =>
    cases r1 with
    | nil => rfl
    | cons v vs => simp at hlen
  | cons c0 cs ih =>
    cases r1 with
    | nil => simp at hlen
    | cons v vs =>
      have hne : ¬ c0 = c := fun he => h (he ▸ List.mem_cons_self c0 cs)
      rw [List.cons_append, List.cons_append, getAtName_cons_of_ne hne]
      exact ih (fun hc => h (List.mem_cons_of_mem _ hc)) (by simpa using hlen)

theorem getAtName_map {cols : List String} {c : String} (h : c ∈ cols)
    (g : String → Val) :
    getAtName cols (cols.map g) c = g c := by
  induction cols with
  | nil => simp at h
  | cons c0 cs ih =>
    by_cases he : c0 = c
    · subst he
      simp only [List.map_cons, getAtName_cons_self]
    · rw [List.map_cons, getAtName_cons_of_ne he]
      have hmem : c ∈ cs := by
        rcases List.mem_cons.mp h with h1 | h1
        · exact absurd h1.symm he
        · exact h1
      exact ih hmem

/-! ### Claim C3: row-stack concatenation -/

theorem concatRows_rowCount (L R : Table) :
    (concatRows L R).rowCount = L.rowCount + R.rowCount := by
  simp [concatRows, Table.rowCount]

theorem concatRows_row_left (L R : Table) (i : Nat) (hi : i < L.rowCount) :
    (concatRows L R).rows.getD i []
      = (concatRows L R).columns.map (getAtName L.columns (L.rows.getD i [])) := by
  have hi2 : i < (L.rows.map
      (fun r => (concatRows L R).columns.map (getAtName L.columns r))).length := by
    simpa [Table.rowCount] using hi
  simp only [concatRows, List.getD_eq_getElem?_getD]
  rw [List.getElem?_append_left (by simpa [Table.rowCount] using hi),
    List.getElem?_map, List.getElem?_eq_getElem (by simpa [Table.rowCount] using hi)]
  simp

theorem concatRows_row_right (L R : Table) (i : Nat) (hi : i < R.rowCount) :
    (concatRows L R).rows.getD (L.rowCount + i) []
      = (concatRows L R).columns.map (getAtName R.columns (R.rows.getD i [])) := by
  simp only [concatRows, List.getD_eq_getElem?_getD]
  rw [List.getElem?_append_right (by simp [Table.rowCount])]
  simp only [List.length_map]
  have harith : L.rowCount + i - L.rows.length = i := by
    simp [Table.rowCount]
  rw [harith, List.getElem?_map,
    List.getElem?_eq_getElem (by simpa [Table.rowCount] using hi)]
  simp

/-- C3: row-stack concatenation adds row counts (so stacking a table with
itself exactly doubles its row count, with no deduplication), its column count
is the size of the union of the input column names, and any cell in a column
absent from a row's originating input is the missing-value marker. -/
theorem C3_row_stack (L R : Table)
    (hL : L.columns.Nodup) (hR : R.columns.Nodup) :
    (concatRows L R).rowCount = L.rowCount + R.rowCount
    ∧ (concatRows L R).columns.length
        = (L.columns.toFinset ∪ R.columns.toFinset).card
    ∧ (concatRows L L).rowCount = 2 * L.rowCount
    ∧ (∀ i c, i < L.rowCount → ¬ c ∈ L.columns →
        (concatRows L R).cellByName i c = Val.missing)
    ∧ (∀ i c, i < R.rowCount → ¬ c ∈ R.columns →
        (concatRows L R).cellByName (L.rowCount + i) c = Val.missing) := by
  refine ⟨concatRows_rowCount L R, ?_, ?_, ?_, ?_⟩
  · have hnd : (concatRows L R).columns.Nodup := by
      refine List.Nodup.append hL (List.Nodup.filter _ hR) ?_
      intro a ha hf
      have : ¬ a ∈ L.columns := by
        have := List.of_mem_filter hf
        simpa using this
      exact this ha
    have hset : (concatRows L R).columns.toFinset
        = L.columns.toFinset ∪ R.columns.toFinset := by
      ext a
      simp only [concatRows, List.toFinset_append, Finset.mem_union,
        List.mem_toFinset, List.mem_filter, decide_eq_true_eq]
      tauto
    rw [← hset, List.toFinset_card_of_nodup hnd]
  · rw [concatRows_rowCount, two_mul]
  · intro i c hi hc
    rw [Table.cellByName, concatRows_row_left L R i hi]
    by_cases hmem : c ∈ (concatRows L R).columns
    · rw [getAtName_map hmem]
      exact getAtName_not_mem hc _
    · exact getAtName_not_mem hmem _
  · intro i c hi hc
    rw [Table.cellByName, concatRows_row_right L R i hi]
    by_cases hmem : c ∈ (concatRows L R).columns
    · rw [getAtName_map hmem]
      exact getAtName_not_mem hc _
    · exact getAtName_not_mem hmem _

/-- Witness for C3 at the concrete tables dfL and dfR. -/
theorem C3_row_stack_witness :
    dfL.columns.Nodup ∧ dfR.columns.Nodup
    ∧ ((concatRows dfL dfR).rowCount = dfL.rowCount + dfR.rowCount
      ∧ (concatRows dfL dfR).columns.length
          = (dfL.columns.toFinset ∪ dfR.columns.toFinset).card
      ∧ (concatRows dfL dfL).rowCount = 2 * dfL.rowCount
      ∧ (∀ i c, i < dfL.rowCount → ¬ c ∈ dfL.columns →
          (concatRows dfL dfR).cellByName i c = Val.missing)
      ∧ (∀ i c, i < dfR.rowCount → ¬ c ∈ dfR.columns →
          (concatRows dfL dfR).cellByName (dfL.rowCount + i) c = Val.missing)) :=
  ⟨by decide, by decide, C3_row_stack dfL dfR (by decide) (by decide)⟩

/-! ### Claim C4: column-stack concatenation -/

theorem concatCols_row (L R : Table) (i : Nat)
    (hi : i < (concatCols L R).index.length) :
    (concatCols L R).rows.getD i []
      = L.columns.map
          (fun c => lookupByLabel L ((concatCols L R).index.getD i Val.missing) c)
        ++ R.columns.map
          (fun c => lookupByLabel R ((concatCols L R).index.getD i Val.missing) c) := by
  simp only [concatCols] at hi ⊢
  rw [List.getD_eq_getElem?_getD, List.getElem?_map, List.getElem?_eq_getElem hi]
  simp only [Option.map_some', Option.getD_some, List.getD_eq_getElem?_getD,
    List.getElem?_eq_getElem hi]

theorem lookupByLabel_not_mem (t : Table) (lbl : Val) (c : String)
    (h : ¬ lbl ∈ t.index) :
    lookupByLabel t lbl c = Val.missing := by
  have hnone : t.index.findIdx? (fun x => x = lbl) = none := by
    rw [List.findIdx?_eq_none_iff]
    intro x hx
    simp only [decide_eq_false_iff_not]
    intro he
    exact h (he ▸ hx)
  simp [lookupByLabel, rowOfLabel, hnone]

/-- C4: column-stack concatenation has one output row per element of the union
of the input index-label sets, the output index is L's labels in first
occurrence order followed by the R-only labels, and a label absent from one
input yields the missing-value marker in all of that input's columns. -/
theorem C4_column_stack (L R : Table) :
    (concatCols L R).rowCount = (L.index.toFinset ∪ R.index.toFinset).card
    ∧ (concatCols L R).index
        = uniqueKeys L.index ++ (uniqueKeys R.index).filter (fun x => ¬ x ∈ L.index)
    ∧ (∀ i, i < (concatCols L R).rowCount →
        ¬ (concatCols L R).index.getD i Val.missing ∈ L.index →
        ((concatCols L R).rows.getD i []).take L.columns.length
          = L.columns.map (fun _ => Val.missing))
    ∧ (∀ i, i < (concatCols L R).rowCount →
        ¬ (concatCols L R).index.getD i Val.missing ∈ R.index →
        ((concatCols L R).rows.getD i []).drop L.columns.length
          = R.columns.map (fun _ => Val.missing)) := by
  have hlen : (concatCols L R).rowCount = (concatCols L R).index.length := by
    simp [concatCols, Table.rowCount]
  refine ⟨?_, ?_, ?_, ?_⟩
  · have hnd : (concatCols L R).index.Nodup := nodup_uniqueKeys _
    have hset : (concatCols L R).index.toFinset
        = L.index.toFinset ∪ R.index.toFinset := by
      ext a
      simp only [concatCols, Finset.mem_union, List.mem_toFinset,
        mem_uniqueKeys, List.mem_append]
    rw [hlen, ← List.toFinset_card_of_nodup hnd, hset]
  · exact uniqueKeys_append L.index R.index
  · intro i hi hmem
    rw [concatCols_row L R i (hlen ▸ hi),
      List.take_left' (by rw [List.length_map])]
    refine List.map_congr_left (fun c _ => ?_)
    exact lookupByLabel_not_mem L _ c hmem
  · intro i hi hmem
    rw [concatCols_row L R i (hlen ▸ hi),
      List.drop_left' (by rw [List.length_map])]
    refine List.map_congr_left (fun c _ => ?_)
    exact lookupByLabel_not_mem R _ c hmem

/-- Witness for C4 at the concrete tables dfL and dfR. -/
theorem C4_column_stack_witness :
    (concatCols dfL dfR).rowCount
        = (dfL.index.toFinset ∪ dfR.index.toFinset).card
    ∧ (concatCols dfL dfR).index
        = uniqueKeys dfL.index
          ++ (uniqueKeys dfR.index).filter (fun x => ¬ x ∈ dfL.index)
    ∧ (∀ i, i < (concatCols dfL dfR).rowCount →
        ¬ (concatCols dfL dfR).index.getD i Val.missing ∈ dfL.index →
        ((concatCols dfL dfR).rows.getD i []).take dfL.columns.length
          = dfL.columns.map (fun _ => Val.missing))
    ∧ (∀ i, i < (concatCols dfL dfR).rowCount →
        ¬ (concatCols dfL dfR).index.getD i Val.missing ∈ dfR.index →
        ((concatCols dfL dfR).rows.getD i []).drop dfL.columns.length
          = dfR.columns.map (fun _ => Val.missing)) :=
  C4_column_stack dfL dfR

/-! ### Claim C6: the outer join dominates the other policies' row counts -/

theorem merge_rowCount (L R : Table) (ksl ksr : KeySpec) (how : How) :
    (merge L R ksl ksr how).rowCount = (joinPlan L R ksl ksr how).length := by
  simp [merge, Table.rowCount]

theorem joinPlan_length (L R : Table) (ksl ksr : KeySpec) (how : How) :
    (joinPlan L R ksl ksr how).length
      = ((survivingKeys L R ksl ksr how).map
          (fun k =>
            (pairsForKey (positionsOf L ksl k) (positionsOf R ksr k)).length)).sum := by
  rw [joinPlan, List.flatMap_def, List.length_flatten, List.map_map]
  rfl

theorem sum_map_filter_split {α : Type} (p : α → Prop) [DecidablePred p]
    (f : α → Nat) (l : List α) :
    ((l.filter (fun x => p x)).map f).sum
      + ((l.filter (fun x => ¬ p x)).map f).sum = (l.map f).sum := by
  induction l with
  | nil => simp
  | cons a l ih =>
    by_cases h : p a
    · rw [List.filter_cons_of_pos (by simpa using h),
        List.filter_cons_of_neg (by simpa using h)]
      simp only [List.map_cons, List.sum_cons]
      omega
    · rw [List.filter_cons_of_neg (by simpa using h),
        List.filter_cons_of_pos (by simpa using h)]
      simp only [List.map_cons, List.sum_cons]
      omega

theorem sum_map_le_of_nodup_subset {α : Type} (f : α → Nat) {l1 l2 : List α}
    (hnd : l1.Nodup) (hsub : l1 ⊆ l2) :
    (l1.map f).sum ≤ (l2.map f).sum := by
  obtain ⟨l, hp, hsl⟩ := hnd.subperm hsub
  calc (l1.map f).sum = (l.map f).sum := ((hp.map f).sum_eq).symm
    _ ≤ (l2.map f).sum :=
        List.Sublist.sum_le_sum (hsl.map f) (fun a _ => Nat.zero_le a)

/-- C6: for every pair of tables and key specifications, the outer-join row
count is at least the maximum of the left-join and right-join row counts, and
at least the inner-join row count. -/
theorem C6_outer_row_count_dominates (L R : Table) (ksl ksr : KeySpec) :
    max (merge L R ksl ksr How.left).rowCount
        (merge L R ksl ksr How.right).rowCount
      ≤ (merge L R ksl ksr How.outer).rowCount
    ∧ (merge L R ksl ksr How.inner).rowCount
      ≤ (merge L R ksl ksr How.outer).rowCount := by
  have hf : ∀ how, (merge L R ksl ksr how).rowCount
      = ((survivingKeys L R ksl ksr how).map
          (fun k =>
            (pairsForKey (positionsOf L ksl k) (positionsOf R ksr k)).length)).sum :=
    fun how => by rw [merge_rowCount, joinPlan_length]
  have houter : (merge L R ksl ksr How.outer).rowCount
      = ((uniqueKeys (allKeys L ksl)).map
          (fun k =>
            (pairsForKey (positionsOf L ksl k) (positionsOf R ksr k)).length)).sum
        + (((uniqueKeys (allKeys R ksr)).filter
              (fun k => ¬ k ∈ allKeys L ksl)).map
            (fun k =>
              (pairsForKey (positionsOf L ksl k) (positionsOf R ksr k)).length)).sum := by
    rw [hf How.outer]
    show ((List.map _ (uniqueKeys (allKeys L ksl)
        ++ (uniqueKeys (allKeys R ksr)).filter
              (fun k => ¬ k ∈ allKeys L ksl))).sum = _)
    rw [List.map_append, List.sum_append]
  have hinnerle : (((uniqueKeys (allKeys L ksl)).filter
        (fun k => k ∈ allKeys R ksr)).map
        (fun k =>
          (pairsForKey (positionsOf L ksl k) (positionsOf R ksr k)).length)).sum
      ≤ ((uniqueKeys (allKeys L ksl)).map
          (fun k =>
            (pairsForKey (positionsOf L ksl k) (positionsOf R ksr k)).length)).sum :=
    List.Sublist.sum_le_sum (List.Sublist.map _ (List.filter_sublist _))
      (fun a _ => Nat.zero_le a)
  constructor
  · rw [max_le_iff]
    constructor
    · rw [hf How.left, houter]
      exact Nat.le_add_right _ _
    · have hr : survivingKeys L R ksl ksr How.right
          = uniqueKeys (allKeys R ksr) := rfl
      rw [hf How.right, hr, houter]
      have hsplit : (((uniqueKeys (allKeys R ksr)).filter
            (fun k => k ∈ allKeys L ksl)).map
            (fun k =>
              (pairsForKey (positionsOf L ksl k) (positionsOf R ksr k)).length)).sum
          + (((uniqueKeys (allKeys R ksr)).filter
              (fun k => ¬ k ∈ allKeys L ksl)).map
              (fun k =>
                (pairsForKey (positionsOf L ksl k) (positionsOf R ksr k)).length)).sum
          = ((uniqueKeys (allKeys R ksr)).map
              (fun k =>
                (pairsForKey (positionsOf L ksl k) (positionsOf R ksr k)).length)).sum :=
        sum_map_filter_split _ _ _
      have hsubsum : (((uniqueKeys (allKeys R ksr)).filter
            (fun k => k ∈ allKeys L ksl)).map
            (fun k =>
              (pairsForKey (positionsOf L ksl k) (positionsOf R ksr k)).length)).sum
          ≤ ((uniqueKeys (allKeys L ksl)).map
              (fun k =>
                (pairsForKey (positionsOf L ksl k) (positionsOf R ksr k)).length)).sum := by
        refine sum_map_le_of_nodup_subset _
          (List.Nodup.filter _ (nodup_uniqueKeys _)) ?_
        intro x hx
        have hxk : x ∈ allKeys L ksl := by
          have := List.of_mem_filter hx
          simpa using this
        exact (mem_uniqueKeys _ _).mpr hxk
      omega
  · rw [hf How.inner, houter]
    exact le_trans hinnerle (Nat.le_add_right _ _)

/-! ### Claim C2: per-key cross-product structure and ordering of the plan -/

/-- Strict lexicographic order on plan entries: left position first, then
right position. -/
def planPairLt (p q : Option Nat × Option Nat) : Prop :=
  p.1.getD 0 < q.1.getD 0 ∨ (p.1 = q.1 ∧ p.2.getD 0 < q.2.getD 0)

theorem pairwise_lt_positionsOf (t : Table) (ks : KeySpec) (k : List Val) :
    List.Pairwise (· < ·) (positionsOf t ks k) :=
  List.Pairwise.filter _ (List.pairwise_lt_range _)

theorem positionsOf_length_countP (t : Table) (ks : KeySpec) (k : List Val) :
    (positionsOf t ks k).length = (allKeys t ks).countP (fun x => x = k) := by
  rw [allKeys, List.countP_map, List.countP_eq_length_filter]
  rfl

theorem pairsForKey_of_ne_nil {lp rp : List Nat} (hl : lp ≠ []) (hr : rp ≠ []) :
    pairsForKey lp rp
      = lp.flatMap (fun i => rp.map (fun j => (some i, some j))) := by
  rw [pairsForKey, if_neg (by simpa [List.isEmpty_iff] using hl),
    if_neg (by simpa [List.isEmpty_iff] using hr)]

theorem length_cross (lp rp : List Nat) :
    (lp.flatMap (fun i => rp.map
        (fun j => ((some i : Option Nat), (some j : Option Nat))))).length
      = lp.length * rp.length := by
  rw [List.flatMap_def, List.length_flatten, List.map_map]
  have h1 : (List.length ∘ fun i => rp.map
      (fun j => ((some i : Option Nat), (some j : Option Nat))))
      = fun _ => rp.length := by
    funext i
    simp
  rw [h1, List.map_const', List.sum_replicate, smul_eq_mul]

theorem pairwise_planPairLt_cross {lp rp : List Nat}
    (hlp : List.Pairwise (· < ·) lp) (hrp : List.Pairwise (· < ·) rp) :
    List.Pairwise planPairLt
      (lp.flatMap (fun i => rp.map
        (fun j => ((some i : Option Nat), (some j : Option Nat))))) := by
  induction lp with
  | nil => simp
  | cons i lp ih =>
    rw [List.flatMap_cons, List.pairwise_append]
    obtain ⟨hhead, htail⟩ := List.pairwise_cons.mp hlp
    refine ⟨?_, ih htail, ?_⟩
    · rw [List.pairwise_map]
      refine hrp.imp (fun hab => ?_)
      exact Or.inr ⟨rfl, by simpa using hab⟩
    · intro a ha b hb
      obtain ⟨j, _, rfl⟩ := List.mem_map.mp ha
      obtain ⟨i2, hi2, hb2⟩ := List.mem_flatMap.mp hb
      obtain ⟨j2, _, rfl⟩ := List.mem_map.mp hb2
      exact Or.inl (by simpa using hhead i2 hi2)

/-- C2: the join plan is, key by key in the policy's order, the block of pairs
for that key; for a surviving key with occurrences on both sides the block is
exactly the cross-product of the left and right position lists, its length is
the product of the key's occurrence counts in the two tables, and the pairs
are ordered left-position-major, right-position-minor. -/
theorem C2_cross_product_per_key (L R : Table) (ksl ksr : KeySpec) (how : How)
    (k : List Val) (_hk : k ∈ survivingKeys L R ksl ksr how)
    (hl : positionsOf L ksl k ≠ []) (hr : positionsOf R ksr k ≠ []) :
    joinPlan L R ksl ksr how
        = (survivingKeys L R ksl ksr how).flatMap
            (fun key => pairsForKey (positionsOf L ksl key) (positionsOf R ksr key))
    ∧ pairsForKey (positionsOf L ksl k) (positionsOf R ksr k)
        = (positionsOf L ksl k).flatMap
            (fun i => (positionsOf R ksr k).map (fun j => (some i, some j)))
    ∧ (pairsForKey (positionsOf L ksl k) (positionsOf R ksr k)).length
        = (allKeys L ksl).countP (fun x => x = k)
          * (allKeys R ksr).countP (fun x => x = k)
    ∧ List.Pairwise planPairLt
        (pairsForKey (positionsOf L ksl k) (positionsOf R ksr k)) := by
  have hcross := pairsForKey_of_ne_nil hl hr
  refine ⟨rfl, hcross, ?_, ?_⟩
  · rw [hcross, length_cross, positionsOf_length_countP, positionsOf_length_countP]
  · rw [hcross]
    exact pairwise_planPairLt_cross (pairwise_lt_positionsOf L ksl k)
      (pairwise_lt_positionsOf R ksr k)

/-- Witness for C2: key [A] of the dfL/dfR inner join, appearing twice on the
left and once on the right. -/
theorem C2_cross_product_per_key_witness :
    ([Val.vstr "A"] ∈ survivingKeys dfL dfR (KeySpec.onCols ["Key"])
        (KeySpec.onCols ["Key"]) How.inner)
    ∧ positionsOf dfL (KeySpec.onCols ["Key"]) [Val.vstr "A"] ≠ []
    ∧ positionsOf dfR (KeySpec.onCols ["Key"]) [Val.vstr "A"] ≠ []
    ∧ (joinPlan dfL dfR (KeySpec.onCols ["Key"]) (KeySpec.onCols ["Key"]) How.inner
        = (survivingKeys dfL dfR (KeySpec.onCols ["Key"]) (KeySpec.onCols ["Key"])
            How.inner).flatMap
            (fun key => pairsForKey (positionsOf dfL (KeySpec.onCols ["Key"]) key)
              (positionsOf dfR (KeySpec.onCols ["Key"]) key))
      ∧ pairsForKey (positionsOf dfL (KeySpec.onCols ["Key"]) [Val.vstr "A"])
            (positionsOf dfR (KeySpec.onCols ["Key"]) [Val.vstr "A"])
          = (positionsOf dfL (KeySpec.onCols ["Key"]) [Val.vstr "A"]).flatMap
              (fun i => (positionsOf dfR (KeySpec.onCols ["Key"]) [Val.vstr "A"]).map
                (fun j => (some i, some j)))
      ∧ (pairsForKey (positionsOf dfL (KeySpec.onCols ["Key"]) [Val.vstr "A"])
            (positionsOf dfR (KeySpec.onCols ["Key"]) [Val.vstr "A"])).length
          = (allKeys dfL (KeySpec.onCols ["Key"])).countP (fun x => x = [Val.vstr "A"])
            * (allKeys dfR (KeySpec.onCols ["Key"])).countP (fun x => x = [Val.vstr "A"])
      ∧ List.Pairwise planPairLt
          (pairsForKey (positionsOf dfL (KeySpec.onCols ["Key"]) [Val.vstr "A"])
            (positionsOf dfR (KeySpec.onCols ["Key"]) [Val.vstr "A"]))) :=
  ⟨by decide, by decide, by decide,
    C2_cross_product_per_key dfL dfR (KeySpec.onCols ["Key"]) (KeySpec.onCols ["Key"])
      How.inner [Val.vstr "A"] (by decide) (by decide) (by decide)⟩

/-! ### Claim C5: commutativity of the inner join, supporting lemmas -/

theorem suffixClash_eq_self {own other : List String} (suf : String)
    (h : ∀ c ∈ own, ¬ c ∈ other) :
    suffixClash own other suf = own := by
  rw [suffixClash]
  calc own.map (fun c => if c ∈ other then c ++ suf else c)
      = own.map (fun c => c) :=
        List.map_congr_left (fun c hc => if_neg (h c hc))
    _ = own := List.map_id' own

theorem mergeCols_of_disjoint (L R : Table) (ks : List String)
    (hdisj : ∀ c, c ∈ L.columns → c ∈ R.columns → c ∈ ks) :
    mergeCols L R (KeySpec.onCols ks) (KeySpec.onCols ks)
      = ks ++ L.columns.filter (fun c => ¬ c ∈ ks)
        ++ R.columns.filter (fun c => ¬ c ∈ ks) := by
  have hd1 : ∀ c ∈ L.columns.filter (fun c => ¬ c ∈ ks),
      ¬ c ∈ R.columns.filter (fun c => ¬ c ∈ ks) := by
    intro c hc hcr
    have h1 := List.of_mem_filter hc
    have h2 := List.of_mem_filter hcr
    simp only [decide_eq_true_eq] at h1 h2
    exact h1 (hdisj c (List.mem_of_mem_filter hc) (List.mem_of_mem_filter hcr))
  have hd2 : ∀ c ∈ R.columns.filter (fun c => ¬ c ∈ ks),
      ¬ c ∈ L.columns.filter (fun c => ¬ c ∈ ks) := by
    intro c hc hcl
    exact hd1 c hcl hc
  show ks ++ suffixClash _ _ _ ++ suffixClash _ _ _ = _
  rw [show sideNonKey L (KeySpec.onCols ks)
      = L.columns.filter (fun c => ¬ c ∈ ks) from rfl,
    show sideNonKey R (KeySpec.onCols ks)
      = R.columns.filter (fun c => ¬ c ∈ ks) from rfl,
    suffixClash_eq_self _ hd1, suffixClash_eq_self _ hd2]

theorem sideVals_length (t : Table) (ks : KeySpec) (o : Option Nat) :
    (sideVals t ks o).length = (sideNonKey t ks).length := by
  cases o <;> simp [sideVals]

theorem keyOfRow_length_onCols (t : Table) (ns : List String) (i : Nat) :
    (keyOfRow t (KeySpec.onCols ns) i).length = ns.length := by
  simp [keyOfRow]

theorem mergeRow_length_onCols (L R : Table) (ks : List String)
    (e : Option Nat × Option Nat) :
    (mergeRow L R (KeySpec.onCols ks) (KeySpec.onCols ks) e).length
      = ks.length + (sideNonKey L (KeySpec.onCols ks)).length
        + (sideNonKey R (KeySpec.onCols ks)).length := by
  obtain ⟨o1, o2⟩ := e
  cases o1 <;> cases o2 <;>
    simp [mergeRow, entryKeyVals, sideVals, keyOfRow, keyOutNames,
      Nat.add_assoc]

theorem keyOfRow_of_mem_positionsOf {t : Table} {ks : KeySpec} {k : List Val}
    {i : Nat} (h : i ∈ positionsOf t ks k) :
    keyOfRow t ks i = k := by
  have := List.of_mem_filter h
  simpa using this

theorem positionsOf_ne_nil_of_mem_allKeys {t : Table} {ks : KeySpec}
    {k : List Val} (h : k ∈ allKeys t ks) :
    positionsOf t ks k ≠ [] := by
  obtain ⟨i, hi, heq⟩ := List.mem_map.mp h
  have hmem : i ∈ positionsOf t ks k :=
    List.mem_filter.mpr ⟨hi, by simpa using heq⟩
  exact List.ne_nil_of_mem hmem

theorem mem_inner_survivingKeys {L R : Table} {ksl ksr : KeySpec}
    {k : List Val} :
    k ∈ survivingKeys L R ksl ksr How.inner
      ↔ k ∈ allKeys L ksl ∧ k ∈ allKeys R ksr := by
  show k ∈ (uniqueKeys (allKeys L ksl)).filter (fun k => k ∈ allKeys R ksr) ↔ _
  rw [List.mem_filter]
  simp [mem_uniqueKeys]

theorem flatMap_congr {α β : Type} {l : List α} {f g : α → List β}
    (h : ∀ a ∈ l, f a = g a) :
    l.flatMap f = l.flatMap g := by
  rw [List.flatMap_def, List.flatMap_def, List.map_congr_left h]

theorem getAtName_three_left {cs1 cs2 : List String} {r1 r2 : List Val}
    {c : String} (h : c ∈ cs1) (h1 : r1.length = cs1.length)
    (h2 : r2.length = cs2.length) (cs3 : List String) (r3 : List Val) :
    getAtName (cs1 ++ cs2 ++ cs3) (r1 ++ r2 ++ r3) c = getAtName cs1 r1 c := by
  rw [getAtName_append_left (List.mem_append.mpr (Or.inl h))
      (by simp [h1, h2]) cs3 r3,
    getAtName_append_left h h1 cs2 r2]

theorem getAtName_three_mid {cs1 cs2 : List String} {r1 r2 : List Val}
    {c : String} (hn : ¬ c ∈ cs1) (h : c ∈ cs2) (h1 : r1.length = cs1.length)
    (h2 : r2.length = cs2.length) (cs3 : List String) (r3 : List Val) :
    getAtName (cs1 ++ cs2 ++ cs3) (r1 ++ r2 ++ r3) c = getAtName cs2 r2 c := by
  rw [getAtName_append_left (List.mem_append.mpr (Or.inr h))
      (by simp [h1, h2]) cs3 r3,
    getAtName_append_right hn h1 cs2 r2]

theorem getAtName_three_right {cs1 cs2 : List String} {r1 r2 : List Val}
    {c : String} (hn1 : ¬ c ∈ cs1) (hn2 : ¬ c ∈ cs2)
    (h1 : r1.length = cs1.length) (h2 : r2.length = cs2.length)
    (cs3 : List String) (r3 : List Val) :
    getAtName (cs1 ++ cs2 ++ cs3) (r1 ++ r2 ++ r3) c = getAtName cs3 r3 c := by
  rw [getAtName_append_right
      (fun hc => (List.mem_append.mp hc).elim hn1 hn2)
      (by simp [h1, h2]) cs3 r3]

/-- Projecting a key-right-left row layout onto key-left-right column order. -/
theorem proj_three {ks lNon rNon : List String} {kv lv rv : List Val}
    (hks : ks.Nodup) (hln : lNon.Nodup) (hrn : rNon.Nodup)
    (d1 : ∀ c ∈ lNon, ¬ c ∈ ks) (d2 : ∀ c ∈ rNon, ¬ c ∈ ks)
    (d3 : ∀ c ∈ lNon, ¬ c ∈ rNon)
    (lk : kv.length = ks.length) (ll : lv.length = lNon.length)
    (lr : rv.length = rNon.length) :
    (ks ++ lNon ++ rNon).map (getAtName (ks ++ rNon ++ lNon) (kv ++ rv ++ lv))
      = kv ++ lv ++ rv := by
  rw [List.map_append, List.map_append]
  have hks_part : ks.map (getAtName (ks ++ rNon ++ lNon) (kv ++ rv ++ lv)) = kv := by
    calc ks.map (getAtName (ks ++ rNon ++ lNon) (kv ++ rv ++ lv))
        = ks.map (getAtName ks kv) :=
          List.map_congr_left (fun c hc =>
            getAtName_three_left hc lk lr lNon lv)
      _ = kv := map_getAtName_self hks lk
  have hl_part : lNon.map (getAtName (ks ++ rNon ++ lNon) (kv ++ rv ++ lv)) = lv := by
    calc lNon.map (getAtName (ks ++ rNon ++ lNon) (kv ++ rv ++ lv))
        = lNon.map (getAtName lNon lv) :=
          List.map_congr_left (fun c hc =>
            getAtName_three_right (d1 c hc) (d3 c hc) lk lr lNon lv)
      _ = lv := map_getAtName_self hln ll
  have hr_part : rNon.map (getAtName (ks ++ rNon ++ lNon) (kv ++ rv ++ lv)) = rv := by
    calc rNon.map (getAtName (ks ++ rNon ++ lNon) (kv ++ rv ++ lv))
        = rNon.map (getAtName rNon rv) :=
          List.map_congr_left (fun c hc =>
            getAtName_three_mid (d2 c hc) hc lk lr lNon lv)
      _ = rv := map_getAtName_self hrn lr
  rw [hks_part, hl_part, hr_part]

theorem flatMap_map_swap_perm {α β γ : Type} (lp : List α) (rp : List β)
    (h : α → β → γ) :
    List.Perm (lp.flatMap (fun i => rp.map (fun j => h i j)))
      (rp.flatMap (fun j => lp.map (fun i => h i j))) := by
  induction lp with
  | nil => simp
  | cons i lp ih =>
    rw [List.flatMap_cons]
    refine List.Perm.trans (List.Perm.append_left _ ih) ?_
    refine List.Perm.trans
      (List.map_append_flatMap_perm rp (fun j => h i j)
        (fun j => lp.map (fun i2 => h i2 j))) ?_
    simp only [List.map_cons]
    exact List.Perm.refl _

theorem rowTuples_inner_normal (L R : Table) (ks : List String)
    (hdisj : ∀ c, c ∈ L.columns → c ∈ R.columns → c ∈ ks)
    (hsig : (ks ++ L.columns.filter (fun c => ¬ c ∈ ks)
        ++ R.columns.filter (fun c => ¬ c ∈ ks)).Nodup) :
    rowTuples (mergeOn L R ks How.inner)
        (ks ++ L.columns.filter (fun c => ¬ c ∈ ks)
          ++ R.columns.filter (fun c => ¬ c ∈ ks))
      = (survivingKeys L R (KeySpec.onCols ks) (KeySpec.onCols ks)
            How.inner).flatMap
          (fun k => (positionsOf L (KeySpec.onCols ks) k).flatMap
            (fun i => (positionsOf R (KeySpec.onCols ks) k).map
              (fun j => k ++ sideVals L (KeySpec.onCols ks) (some i)
                ++ sideVals R (KeySpec.onCols ks) (some j)))) := by
  have hcols : (mergeOn L R ks How.inner).columns
      = ks ++ L.columns.filter (fun c => ¬ c ∈ ks)
        ++ R.columns.filter (fun c => ¬ c ∈ ks) :=
    mergeCols_of_disjoint L R ks hdisj
  have hrows : (mergeOn L R ks How.inner).rows
      = (joinPlan L R (KeySpec.onCols ks) (KeySpec.onCols ks) How.inner).map
          (mergeRow L R (KeySpec.onCols ks) (KeySpec.onCols ks)) := rfl
  rw [rowTuples, hrows, hcols, List.map_map, joinPlan, List.map_flatMap]
  refine flatMap_congr (fun k hk => ?_)
  have hmem := mem_inner_survivingKeys.mp hk
  rw [pairsForKey_of_ne_nil (positionsOf_ne_nil_of_mem_allKeys hmem.1)
      (positionsOf_ne_nil_of_mem_allKeys hmem.2),
    List.map_flatMap]
  refine flatMap_congr (fun i hi => ?_)
  rw [List.map_map]
  refine List.map_congr_left (fun j hj => ?_)
  show (ks ++ L.columns.filter (fun c => ¬ c ∈ ks)
      ++ R.columns.filter (fun c => ¬ c ∈ ks)).map
      (getAtName (ks ++ L.columns.filter (fun c => ¬ c ∈ ks)
        ++ R.columns.filter (fun c => ¬ c ∈ ks))
        (mergeRow L R (KeySpec.onCols ks) (KeySpec.onCols ks) (some i, some j)))
    = _
  have hlen : (mergeRow L R (KeySpec.onCols ks) (KeySpec.onCols ks)
      (some i, some j)).length
      = (ks ++ L.columns.filter (fun c => ¬ c ∈ ks)
        ++ R.columns.filter (fun c => ¬ c ∈ ks)).length := by
    rw [mergeRow_length_onCols]
    simp only [sideNonKey, List.length_append]
  rw [map_getAtName_self hsig hlen]
  show keyOfRow L (KeySpec.onCols ks) i
      ++ sideVals L (KeySpec.onCols ks) (some i)
      ++ sideVals R (KeySpec.onCols ks) (some j) = _
  rw [keyOfRow_of_mem_positionsOf hi]

theorem rowTuples_inner_normal_swapped (L R : Table) (ks : List String)
    (hL : L.columns.Nodup) (hR : R.columns.Nodup) (hks : ks.Nodup)
    (hdisj : ∀ c, c ∈ L.columns → c ∈ R.columns → c ∈ ks) :
    rowTuples (mergeOn R L ks How.inner)
        (ks ++ L.columns.filter (fun c => ¬ c ∈ ks)
          ++ R.columns.filter (fun c => ¬ c ∈ ks))
      = (survivingKeys R L (KeySpec.onCols ks) (KeySpec.onCols ks)
            How.inner).flatMap
          (fun k => (positionsOf R (KeySpec.onCols ks) k).flatMap
            (fun j => (positionsOf L (KeySpec.onCols ks) k).map
              (fun i => k ++ sideVals L (KeySpec.onCols ks) (some i)
                ++ sideVals R (KeySpec.onCols ks) (some j)))) := by
  have hd1 : ∀ c ∈ L.columns.filter (fun c => ¬ c ∈ ks), ¬ c ∈ ks := by
    intro c hc
    have := List.of_mem_filter hc
    simpa using this
  have hd2 : ∀ c ∈ R.columns.filter (fun c => ¬ c ∈ ks), ¬ c ∈ ks := by
    intro c hc
    have := List.of_mem_filter hc
    simpa using this
  have hd3 : ∀ c ∈ L.columns.filter (fun c => ¬ c ∈ ks),
      ¬ c ∈ R.columns.filter (fun c => ¬ c ∈ ks) := by
    intro c hc hcr
    exact hd1 c hc (hdisj c (List.mem_of_mem_filter hc)
      (List.mem_of_mem_filter hcr))
  have hcols : (mergeOn R L ks How.inner).columns
      = ks ++ R.columns.filter (fun c => ¬ c ∈ ks)
        ++ L.columns.filter (fun c => ¬ c ∈ ks) :=
    mergeCols_of_disjoint R L ks (fun c hcR hcL => hdisj c hcL hcR)
  have hrows : (mergeOn R L ks How.inner).rows
      = (joinPlan R L (KeySpec.onCols ks) (KeySpec.onCols ks) How.inner).map
          (mergeRow R L (KeySpec.onCols ks) (KeySpec.onCols ks)) := rfl
  rw [rowTuples, hrows, hcols, List.map_map, joinPlan, List.map_flatMap]
  refine flatMap_congr (fun k hk => ?_)
  have hmem := mem_inner_survivingKeys.mp hk
  rw [pairsForKey_of_ne_nil (positionsOf_ne_nil_of_mem_allKeys hmem.1)
      (positionsOf_ne_nil_of_mem_allKeys hmem.2),
    List.map_flatMap]
  refine flatMap_congr (fun j hj => ?_)
  rw [List.map_map]
  refine List.map_congr_left (fun i hi => ?_)
  show (ks ++ L.columns.filter (fun c => ¬ c ∈ ks)
      ++ R.columns.filter (fun c => ¬ c ∈ ks)).map
      (getAtName (ks ++ R.columns.filter (fun c => ¬ c ∈ ks)
        ++ L.columns.filter (fun c => ¬ c ∈ ks))
        (keyOfRow R (KeySpec.onCols ks) j
          ++ sideVals R (KeySpec.onCols ks) (some j)
          ++ sideVals L (KeySpec.onCols ks) (some i)))
    = _
  rw [proj_three hks (hL.filter _) (hR.filter _) hd1 hd2 hd3
      (keyOfRow_length_onCols R ks j)
      ((sideVals_length L (KeySpec.onCols ks) (some i)).trans rfl)
      ((sideVals_length R (KeySpec.onCols ks) (some j)).trans rfl),
    keyOfRow_of_mem_positionsOf hj]

/-- C5: inner join is commutative up to column order and row order — after
reprojecting each output row by column name into the common column order
(key columns, then L's non-key, then R's non-key columns), the row-tuple
lists of the (L, R) and the (R, L) inner joins on the same key columns are
permutations of each other.  The hypotheses are the table invariant
(duplicate-free column names), a duplicate-free key list, and no non-key
column-name clash across the sides (the spec's ColumnConflict-free case). -/
theorem C5_inner_join_commutative (L R : Table) (ks : List String)
    (hL : L.columns.Nodup) (hR : R.columns.Nodup) (hks : ks.Nodup)
    (hdisj : ∀ c, c ∈ L.columns → c ∈ R.columns → c ∈ ks) :
    List.Perm
      (rowTuples (mergeOn L R ks How.inner)
        (ks ++ L.columns.filter (fun c => ¬ c ∈ ks)
          ++ R.columns.filter (fun c => ¬ c ∈ ks)))
      (rowTuples (mergeOn R L ks How.inner)
        (ks ++ L.columns.filter (fun c => ¬ c ∈ ks)
          ++ R.columns.filter (fun c => ¬ c ∈ ks))) := by
  have hd1 : ∀ c ∈ L.columns.filter (fun c => ¬ c ∈ ks), ¬ c ∈ ks := by
    intro c hc
    have := List.of_mem_filter hc
    simpa using this
  have hd2 : ∀ c ∈ R.columns.filter (fun c => ¬ c ∈ ks), ¬ c ∈ ks := by
    intro c hc
    have := List.of_mem_filter hc
    simpa using this
  have hd3 : ∀ c ∈ L.columns.filter (fun c => ¬ c ∈ ks),
      ¬ c ∈ R.columns.filter (fun c => ¬ c ∈ ks) := by
    intro c hc hcr
    exact hd1 c hc (hdisj c (List.mem_of_mem_filter hc)
      (List.mem_of_mem_filter hcr))
  have hsig : (ks ++ L.columns.filter (fun c => ¬ c ∈ ks)
      ++ R.columns.filter (fun c => ¬ c ∈ ks)).Nodup := by
    refine List.Nodup.append (List.Nodup.append hks (hL.filter _) ?_)
      (hR.filter _) ?_
    · intro a ha hal
      exact hd1 a hal ha
    · intro a ha har
      rcases List.mem_append.mp ha with h | h
      · exact hd2 a har h
      · exact hd3 a h har
  rw [rowTuples_inner_normal L R ks hdisj hsig,
    rowTuples_inner_normal_swapped L R ks hL hR hks hdisj]
  have hkeysperm : List.Perm
      (survivingKeys L R (KeySpec.onCols ks) (KeySpec.onCols ks) How.inner)
      (survivingKeys R L (KeySpec.onCols ks) (KeySpec.onCols ks) How.inner) := by
    have nd1 : (survivingKeys L R (KeySpec.onCols ks) (KeySpec.onCols ks)
        How.inner).Nodup := List.Nodup.filter _ (nodup_uniqueKeys _)
    have nd2 : (survivingKeys R L (KeySpec.onCols ks) (KeySpec.onCols ks)
        How.inner).Nodup := List.Nodup.filter _ (nodup_uniqueKeys _)
    refine (List.perm_ext_iff_of_nodup nd1 nd2).mpr (fun k => ?_)
    rw [mem_inner_survivingKeys, mem_inner_survivingKeys]
    exact and_comm
  refine List.Perm.trans ?_ (List.Perm.flatMap_right _ hkeysperm)
  refine List.Perm.flatMap_left _ (fun k _ => ?_)
  exact flatMap_map_swap_perm _ _ _

/-- Witness for C5 at the concrete tables dfL and dfR, joined on Key. -/
theorem C5_inner_join_commutative_witness :
    dfL.columns.Nodup ∧ dfR.columns.Nodup ∧ (["Key"] : List String).Nodup
    ∧ (∀ c, c ∈ dfL.columns → c ∈ dfR.columns → c ∈ ["Key"])
    ∧ List.Perm
        (rowTuples (mergeOn dfL dfR ["Key"] How.inner)
          (["Key"] ++ dfL.columns.filter (fun c => ¬ c ∈ ["Key"])
            ++ dfR.columns.filter (fun c => ¬ c ∈ ["Key"])))
        (rowTuples (mergeOn dfR dfL ["Key"] How.inner)
          (["Key"] ++ dfL.columns.filter (fun c => ¬ c ∈ ["Key"])
            ++ dfR.columns.filter (fun c => ¬ c ∈ ["Key"]))) :=
  ⟨by decide, by decide, by decide, by decide,
    C5_inner_join_commutative dfL dfR ["Key"] (by decide) (by decide)
      (by decide) (by decide)⟩
